import Mathlib

/-!
Verification of the bootstrap orchestration engine
(`src/rust/src/bootstrap_v2` and `src/rust/crates/bootstrap-repo-cli`).

The Rust code is shallowly embedded: pure functions become Lean
functions, external effects (installer operations, lock availability,
the filesystem, sleeps and timeouts) become explicit environment
parameters, and recursion whose termination depends on runtime data is
given an explicit fuel parameter, where running out of fuel models
divergence of the Rust original.  Durations are naturals (milliseconds).
-/

namespace Bootstrap

/-- A capability descriptor: the static part of the Rust `Installer`
trait (`installer.rs`): `id()`, `name()`, `description()`,
`dependencies()`, `concurrency_safe()`.  The effectful operations
`detect` / `install` / `verify` are modelled separately by the
execution environment. -/
structure Capability where
  id : String
  name : String
  description : String
  dependencies : List String
  concurrency_safe : Bool
deriving DecidableEq, Repr

/-- `InstallerRegistry` (`installers/mod.rs`): a finite map from id to
capability.  The Rust `HashMap<&str, Arc<dyn Installer>>` keyed by
`installer.id()` is modelled as an association list queried with
`find?`; every registered entry is keyed by its own `id` field, which
matches `register` inserting under `installer.id()`. -/
structure InstallerRegistry where
  installers : List Capability
deriving DecidableEq, Repr

/-- `InstallerRegistry::get`. -/
def InstallerRegistry.get (r : InstallerRegistry) (id : String) : Option Capability :=
  r.installers.find? (fun c => c.id = id)

/-- `std::io::ErrorKind`, restricted to the kinds `classify_error`
distinguishes (`retry.rs` lines 106-116); all remaining kinds are
collapsed into `OtherKind`, matching the catch-all `_` arm. -/
inductive IoErrorKind where
  | TimedOut
  | ConnectionReset
  | ConnectionAborted
  | ConnectionRefused
  | NotFound
  | PermissionDenied
  | InvalidInput
  | OtherKind
deriving DecidableEq, Repr

/-- `BootstrapError` (`errors.rs`).  The payloads are the ones carried
by the Rust variants (strings, exit codes).  `InstallerNotFound` and
`ExecutionFailed` are referenced by `executor.rs` (lines 199, 271)
although `errors.rs` does not declare them; they are included so the
executor can be translated. -/
inductive BootstrapError where
  | NotInRepo
  | VenvActivation (msg : String)
  | InstallFailed (tool : String) (exit_code : Int) (stderr : String)
  | NoInstallTarget
  | RepoLintUpgradeFailed (msg : String)
  | RepoLintInstallFailed (msg : String)
  | PythonToolsFailed (msg : String)
  | VerificationFailed (msg : String)
  | ConfigError (msg : String)
  | IoError (kind : IoErrorKind)
  | CommandFailed (command : String) (exit_code : Option Int) (stderr : String)
  | ToolNotFound (id : String)
  | DetectionFailed (msg : String)
  | NoPackageManager (msg : String)
  | DependencyResolution (msg : String)
  | CyclicDependency
  | HttpError (msg : String)
  | ChecksumMismatch (artifact : String) (expected : String) (actual : String)
  | InstallerNotFound (id : String)
  | ExecutionFailed (msg : String)
  | Other (msg : String)
deriving DecidableEq, Repr

/-- Result of a fuel-bounded computation: `outOfFuel` means the
recursion exceeded the modelled depth bound, i.e. the Rust original
diverges (recurses without bound) on this input. -/
inductive FuelResult (α : Type) where
  | ok (a : α)
  | err (e : BootstrapError)
  | outOfFuel
deriving DecidableEq, Repr

/-- The mutable state threaded through `resolve_deps_recursive`:
the `resolved` output vector and the `visited` set
(`installers/mod.rs` lines 75-109). -/
structure ResolveState where
  resolved : List Capability
  visited : List String
deriving DecidableEq, Repr

/-- The `for dep in installer.dependencies()` loop body of
`resolve_deps_recursive`: run `f` on each id in turn, threading the
state, stopping at the first error (the Rust `?`). -/
def goDeps (f : String → ResolveState → FuelResult ResolveState) :
    List String → ResolveState → FuelResult ResolveState
  | [], st => .ok st
  | d :: ds, st =>
    match f d st with
    | .ok st2 => goDeps f ds st2
    | .err e => .err e
    | .outOfFuel => .outOfFuel

/-- `InstallerRegistry::resolve_deps_recursive` (`installers/mod.rs`
lines 86-109), with an explicit recursion-depth bound `fuel`.

The Rust original:
1. returns `Ok(())` if `id` is already in `visited`;
2. fails with `ToolNotFound` if `id` is not registered;
3. recursively resolves every declared dependency;
4. only then inserts `id` into `visited` and appends the capability to
   `resolved`.

Note that nothing is inserted into `visited` before step 3, and no
separate "currently expanding" set exists, so on a dependency cycle
the recursion at step 3 never terminates; this is modelled by the
result being `outOfFuel` for every fuel. -/
def resolveDepsRec (r : InstallerRegistry) : Nat → String → ResolveState → FuelResult ResolveState
  | 0, _, _ => .outOfFuel
  | fuel + 1, id, st =>
    if st.visited.contains id then .ok st
    else
      match r.get id with
      | none => .err (.ToolNotFound id)
      | some installer =>
        match goDeps (resolveDepsRec r fuel) installer.dependencies st with
        | .ok st2 => .ok ⟨st2.resolved ++ [installer], id :: st2.visited⟩
        | .err e => .err e
        | .outOfFuel => .outOfFuel

/-- `InstallerRegistry::resolve_dependencies` (`installers/mod.rs`
lines 75-84): fold `resolve_deps_recursive` over the requested ids,
starting from empty `resolved` / `visited`. -/
def resolve_dependencies (r : InstallerRegistry) (fuel : Nat) (ids : List String) :
    FuelResult (List Capability) :=
  match goDeps (resolveDepsRec r fuel) ids ⟨[], []⟩ with
  | .ok st => .ok st.resolved
  | .err e => .err e
  | .outOfFuel => .outOfFuel

/-- No id occurs twice in the resolved sequence. -/
def NoDupIds (l : List Capability) : Prop :=
  (l.map Capability.id).Nodup

/-- Every declared dependency of every element of the sequence appears
strictly earlier in the sequence. -/
def DepsBefore (l : List Capability) : Prop :=
  ∀ i : Fin l.length, ∀ d ∈ (l.get i).dependencies,
    ∃ j : Fin l.length, j.val < i.val ∧ (l.get j).id = d

instance (l : List Capability) : Decidable (NoDupIds l) := by
  unfold NoDupIds; infer_instance

instance (l : List Capability) : Decidable (DepsBefore l) := by
  unfold DepsBefore; infer_instance

/-- A registry whose dependency graph has the self-cycle `a → a`. -/
def cycRegistry : InstallerRegistry :=
  ⟨[⟨"a", "Tool A", "cyclic test tool", ["a"], true⟩]⟩

/-- `StepAction` (`plan.rs` lines 243-256). -/
inductive StepAction where
  | Detect
  | Install
  | Verify
  | Skip (reason : String)
deriving DecidableEq, Repr

/-- `Step` (`plan.rs` lines 221-240). -/
structure Step where
  id : String
  installer : String
  action : StepAction
  dependencies : List String
  concurrency_safe : Bool
  required_locks : List String
deriving DecidableEq, Repr

/-- `Phase` (`plan.rs` lines 208-218). -/
structure Phase where
  name : String
  steps : List Step
  can_parallelize : Bool
deriving DecidableEq, Repr

/-- `ExecutionPlan` (`plan.rs` lines 33-40). -/
structure ExecutionPlan where
  phases : List Phase
  total_steps : Nat
deriving DecidableEq, Repr

/-- The Detect step built for one capability
(`ExecutionPlan::compute`, `plan.rs` lines 62-69). -/
def detectStep (c : Capability) : Step :=
  ⟨"detect-" ++ c.id, c.id, .Detect, [], true, []⟩

/-- The Install step built for one capability
(`plan.rs` lines 82-102): its dependencies are the Install steps of
the capability's dependency ids; a capability that is not
concurrency-safe requires the package-manager lock. -/
def installStep (c : Capability) : Step :=
  ⟨"install-" ++ c.id, c.id, .Install,
   c.dependencies.map (fun d => "install-" ++ d),
   c.concurrency_safe,
   if c.concurrency_safe then [] else ["package_manager_lock"]⟩

/-- The Verify step built for one capability
(`plan.rs` lines 115-122). -/
def verifyStep (c : Capability) : Step :=
  ⟨"verify-" ++ c.id, c.id, .Verify, ["install-" ++ c.id], true, []⟩

/-- The phase list built by `ExecutionPlan::compute`
(`plan.rs` lines 56-130): Detection (parallel), Installation
(sequential), Verification (parallel), each with one step per
resolved capability in resolution order. -/
def buildPhases (installers : List Capability) : List Phase :=
  [⟨"Detection", installers.map detectStep, true⟩,
   ⟨"Installation", installers.map installStep, false⟩,
   ⟨"Verification", installers.map verifyStep, true⟩]

/-- The plan built from an already-resolved installer list; the
`total_steps` counter is incremented once per step in each of the
three loops of `ExecutionPlan::compute`. -/
def ExecutionPlan.ofInstallers (installers : List Capability) : ExecutionPlan :=
  ⟨buildPhases installers,
   installers.length + installers.length + installers.length⟩

/-- `ExecutionPlan::compute` (`plan.rs` lines 44-136): resolve the
requested tools through the registry, then build the three phases. -/
def ExecutionPlan.compute (r : InstallerRegistry) (required_tools : List String)
    (fuel : Nat) : FuelResult ExecutionPlan :=
  match resolve_dependencies r fuel required_tools with
  | .ok installers => .ok (ExecutionPlan.ofInstallers installers)
  | .err e => .err e
  | .outOfFuel => .outOfFuel

/-- One value fed to the hasher in `ExecutionPlan::compute_hash`. -/
inductive HashToken where
  | nat (n : Nat)
  | str (s : String)
deriving DecidableEq, Repr

/-- `ExecutionPlan::compute_hash` (`plan.rs` lines 191-204).  The Rust
function feeds, in order: `total_steps`, then for each phase its name
followed by the ids of its steps, into a `DefaultHasher` and formats
the 64-bit result.  The hasher itself is a fixed deterministic pure
function of exactly this token sequence, so the hash is modelled by
the token sequence: two plans get the same Rust hash whenever their
sequences are equal, and distinct sequences give distinct hashes up to
64-bit hash collisions. -/
def ExecutionPlan.compute_hash (p : ExecutionPlan) : List HashToken :=
  .nat p.total_steps ::
    p.phases.flatMap (fun ph => .str ph.name :: ph.steps.map (fun s => .str s.id))

/-- `semver::Version`, restricted to the numeric components the
orchestrator transports opaquely. -/
structure SemVersion where
  major : Nat
  minor : Nat
  patch : Nat
deriving DecidableEq, Repr

/-- `InstallResult` (`installer.rs` lines 19-29). -/
structure InstallResult where
  version : SemVersion
  installed_new : Bool
  log_messages : List String
deriving DecidableEq, Repr

/-- `VerifyResult` (`installer.rs` lines 31-42). -/
structure VerifyResult where
  success : Bool
  version : Option SemVersion
  issues : List String
deriving DecidableEq, Repr

/-- `StepResult` (`executor.rs` lines 37-60).  Durations are not
tracked by the model; the `duration` field is always 0. -/
structure StepResult where
  step_id : String
  installer_id : String
  success : Bool
  duration : Nat
  error : Option String
  install_result : Option InstallResult
  verify_result : Option VerifyResult
deriving DecidableEq, Repr

/-- The external world seen by one executor run: the outcome of
acquiring each named lock (`LockManager::acquire` inside
`execute_step_impl`), and the outcome of each capability operation,
keyed by installer id.  These are the `await` points of
`execute_step_impl`; everything else in the executor is pure. -/
structure ExecEnv where
  lockAcquire : String → Except BootstrapError Unit
  detect : String → Except BootstrapError (Option SemVersion)
  install : String → Except BootstrapError InstallResult
  verify : String → Except BootstrapError VerifyResult

/-- The lock-acquisition loop at the top of `execute_step_impl`
(`executor.rs` lines 257-266): acquire every required lock in list
order, propagating the first failure (the Rust `?`). -/
def acquireLocks (env : ExecEnv) : List String → Except BootstrapError Unit
  | [] => .ok ()
  | l :: ls =>
    match env.lockAcquire l with
    | .ok _ => acquireLocks env ls
    | .error e => .error e

/-- `Executor::execute_step_impl` (`executor.rs` lines 248-357):
acquire the step's locks, look the installer up in the registry, then
run the arm for the step's action.  Each `?` on an environment
outcome propagates the error, producing no `StepResult` at all. -/
def executeStepImpl (env : ExecEnv) (r : InstallerRegistry) (step : Step) :
    Except BootstrapError StepResult :=
  match acquireLocks env step.required_locks with
  | .error e => .error e
  | .ok _ =>
    match r.get step.installer with
    | none => .error (.InstallerNotFound step.installer)
    | some _installer =>
      match step.action with
      | .Detect =>
        match env.detect step.installer with
        | .error e => .error e
        | .ok version_opt =>
          .ok ⟨step.id, step.installer, true, 0, none, none,
               some ⟨version_opt.isSome, version_opt, []⟩⟩
      | .Install =>
        match env.install step.installer with
        | .error e => .error e
        | .ok install_res =>
          .ok ⟨step.id, step.installer, true, 0, none, some install_res, none⟩
      | .Verify =>
        match env.verify step.installer with
        | .error e => .error e
        | .ok verify_res =>
          .ok ⟨step.id, step.installer, verify_res.success, 0,
               if verify_res.success then none
               else some (String.intercalate "; " verify_res.issues),
               none, some verify_res⟩
      | .Skip reason =>
        .ok ⟨step.id, step.installer, true, 0, none, none,
             some ⟨true, none, ["Skipped: " ++ reason]⟩⟩

/-- `Executor::execute_sequential` (`executor.rs` lines 219-230): run
the steps one at a time in phase order; the first step error is
propagated immediately (fail-fast), abandoning both the remaining
steps (which never run) and the results already pushed. -/
def executeSequential (env : ExecEnv) (r : InstallerRegistry) :
    List Step → Except BootstrapError (List StepResult)
  | [] => .ok []
  | s :: rest =>
    match executeStepImpl env r s with
    | .error e => .error e
    | .ok res =>
      match executeSequential env r rest with
      | .error e => .error e
      | .ok more => .ok (res :: more)

/-- The collection loop of `Executor::execute_parallel`
(`executor.rs` lines 195-201): await the spawned handles in spawn
order; the `??` propagates the first step error, abandoning the
remaining handles (their tasks still run, but their results are
dropped). -/
def collectJoined : List (Except BootstrapError StepResult) →
    Except BootstrapError (List StepResult)
  | [] => .ok []
  | .error e :: _ => .error e
  | .ok res :: rest =>
    match collectJoined rest with
    | .error e => .error e
    | .ok more => .ok (res :: more)

/-- `Executor::execute_parallel` (`executor.rs` lines 173-204): every
step is spawned as an independent task before any is awaited (so every
step's computation runs regardless of its siblings), then the handles
are awaited in spawn order and the results collected.  The bounded
semaphore limits simultaneity only and is not observable in the
model. -/
def executeParallel (env : ExecEnv) (r : InstallerRegistry) (steps : List Step) :
    Except BootstrapError (List StepResult) :=
  collectJoined (steps.map (executeStepImpl env r))

/-- `Executor::execute_phase` (`executor.rs` lines 150-158). -/
def executePhase (env : ExecEnv) (r : InstallerRegistry) (ph : Phase) :
    Except BootstrapError (List StepResult) :=
  if ph.can_parallelize then executeParallel env r ph.steps
  else executeSequential env r ph.steps

/-- The phase loop of `Executor::execute` (`executor.rs` lines
114-135): run the phases in order, extending the accumulated result
list; a phase error is propagated by the `?` on `execute_phase`. -/
def executePhases (env : ExecEnv) (r : InstallerRegistry) :
    List Phase → Except BootstrapError (List StepResult)
  | [] => .ok []
  | ph :: rest =>
    match executePhase env r ph with
    | .error e => .error e
    | .ok rs =>
      match executePhases env r rest with
      | .error e => .error e
      | .ok more => .ok (rs ++ more)

/-- `Executor::execute` (`executor.rs` lines 114-135). -/
def Executor.execute (env : ExecEnv) (r : InstallerRegistry) (plan : ExecutionPlan) :
    Except BootstrapError (List StepResult) :=
  executePhases env r plan.phases

/-- `RetryClass` (`retry.rs` lines 36-49). -/
inductive RetryClass where
  | Transient
  | Permanent
  | Security
  | Unsafe
deriving DecidableEq, Repr

/-- `RetryPolicy` (`retry.rs` lines 52-68); durations in
milliseconds. -/
structure RetryPolicy where
  max_attempts : Nat
  initial_delay : Nat
  max_delay : Nat
  max_total_time : Nat
  jitter : Bool
deriving DecidableEq, Repr

/-- `RetryPolicy::network_default` (`retry.rs` lines 72-80). -/
def RetryPolicy.network_default : RetryPolicy :=
  ⟨3, 1000, 30000, 60000, true⟩

/-- `RetryPolicy::package_manager_default` (`retry.rs` lines 83-91). -/
def RetryPolicy.package_manager_default : RetryPolicy :=
  ⟨2, 2000, 10000, 30000, false⟩

/-- A dynamically typed error (`anyhow::Error`) as `classify_error`
inspects it: it may downcast to a `BootstrapError`, to a bare
`std::io::Error` (represented by its kind), be the wrapper created on
retry-budget exhaustion, or be anything else. -/
inductive AnyError where
  | bootstrap (e : BootstrapError)
  | io (kind : IoErrorKind)
  | retryTimeout (elapsedMs : Nat) (inner : AnyError)
  | unknown (msg : String)
deriving DecidableEq, Repr

/-- `classify_error` (`retry.rs` lines 95-121): `BootstrapError`s are
classified by variant (checksum mismatch → Security, HTTP → Transient,
config / not-in-repo / no-package-manager → Permanent, everything else
→ Permanent); bare io errors by kind (timeouts and connection failures
→ Transient, not-found / permission / invalid-input → Permanent,
everything else → Permanent); any other error type → Permanent. -/
def classify_error : AnyError → RetryClass
  | .bootstrap e =>
    match e with
    | .ChecksumMismatch _ _ _ => .Security
    | .HttpError _ => .Transient
    | .ConfigError _ => .Permanent
    | .NotInRepo => .Permanent
    | .NoPackageManager _ => .Permanent
    | _ => .Permanent
  | .io kind =>
    match kind with
    | .TimedOut => .Transient
    | .ConnectionReset => .Transient
    | .ConnectionAborted => .Transient
    | .ConnectionRefused => .Transient
    | .NotFound => .Permanent
    | .PermissionDenied => .Permanent
    | .InvalidInput => .Permanent
    | .OtherKind => .Permanent
  | .retryTimeout _ _ => .Permanent
  | .unknown _ => .Permanent

/-- The loop of `retry_with_backoff` (`retry.rs` lines 124-178).

Environment parameters: `op n` is the outcome of the n-th invocation
of the operation (1-indexed); `elapsed n` is the value of
`started.elapsed()` observed after the n-th failed invocation; `jf n d`
is the jittered sleep computed from base delay `d` before retry n+1
when `policy.jitter` holds (`Duration::from_secs_f64(d * (1.0 + rand * 0.3))`).

Returns the final result, the number of invocations performed, and the
list of delays actually slept.  Faithful to the source, the
attempt-count guard is checked before classification, classification
before the time budget, and the un-jittered base delay doubles (capped
at `max_delay`) only after the sleep. -/
def retryGo {α : Type} (p : RetryPolicy) (op : Nat → Except AnyError α)
    (elapsed : Nat → Nat) (jf : Nat → Nat → Nat) (attempts delay : Nat) :
    Except AnyError α × Nat × List Nat :=
  let att := attempts + 1
  match op att with
  | .ok v => (.ok v, att, [])
  | .error e =>
    if h : p.max_attempts ≤ att then (.error e, att, [])
    else
      match classify_error e with
      | .Transient =>
        if p.max_total_time ≤ elapsed att then
          (.error (.retryTimeout (elapsed att) e), att, [])
        else
          let actual := if p.jitter then jf att delay else delay
          let next := retryGo p op elapsed jf att (min (delay * 2) p.max_delay)
          (next.1, next.2.1, actual :: next.2.2)
      | .Permanent => (.error e, att, [])
      | .Security => (.error e, att, [])
      | .Unsafe => (.error e, att, [])
termination_by p.max_attempts - attempts
decreasing_by omega

/-- `retry_with_backoff` (`retry.rs` lines 124-178), starting with
zero attempts and `initial_delay`. -/
def retry_with_backoff {α : Type} (p : RetryPolicy) (op : Nat → Except AnyError α)
    (elapsed : Nat → Nat) (jf : Nat → Nat → Nat) :
    Except AnyError α × Nat × List Nat :=
  retryGo p op elapsed jf 0 p.initial_delay

/-- The expected backoff sleep sequence: `n` sleeps starting at
`init`, each subsequent base delay doubling and capped at `cap`. -/
def backoffSeq (init cap : Nat) : Nat → List Nat
  | 0 => []
  | n + 1 => init :: backoffSeq (min (init * 2) cap) cap n

/-- Outcome of `LockManager::acquire`
(`crates/bootstrap-repo-cli/src/lock.rs` lines 81-138).  `acquired e` /
`timeoutErr name e` carry the elapsed wall-clock milliseconds; the
timeout error is the `ConfigError` naming the lock and the elapsed
time; `unknownLock` is the immediate `ConfigError` for an unregistered
name.  The `Ok(Err(_))` semaphore-closed branch cannot occur (the
semaphores are never closed) and is not modelled. -/
inductive LockOutcome where
  | acquired (elapsedMs : Nat)
  | timeoutErr (lock : String) (elapsedMs : Nat)
  | unknownLock (lock : String)
deriving DecidableEq, Repr

/-- Whether `tokio::time::timeout(w, semaphore.acquire())` succeeds
for an attempt spanning `[t, t + w]`, when the holder releases the
lock at absolute time `freeAt` (`none`: never during this call). -/
def lockFreeWithin (freeAt : Option Nat) (t w : Nat) : Bool :=
  match freeAt with
  | some f => decide (f ≤ t + w)
  | none => false

/-- The polling loop of `LockManager::acquire`
(`crates/bootstrap-repo-cli/src/lock.rs` lines 103-137), in
deterministic time: `t` is the elapsed time at the start of the
attempt and `w` the current per-attempt timeout.  A successful attempt
returns at the moment the holder releases (no earlier than `t`); a
failed attempt consumes the full window `w`, then either the deadline
check fires or the loop sleeps `min w 2000` ms (the code's
`timeout_duration.min(max_timeout)`) and doubles the window, capping
it at 2000 ms.  Also returns the list of attempt windows used and the
list of sleeps performed. -/
def acquireLoop (freeAt : Option Nat) (deadline : Nat) (lock : String) :
    (t : Nat) → (w : Nat) → 0 < w → LockOutcome × List Nat × List Nat
  | t, w, hw =>
    if lockFreeWithin freeAt t w then
      (.acquired (max t (freeAt.getD 0)), [w], [])
    else
      let t2 := t + w
      if h2 : deadline ≤ t2 then (.timeoutErr lock t2, [w], [])
      else
        let backoff := min w 2000
        let next := acquireLoop freeAt deadline lock (t2 + backoff)
          (min (w * 2) 2000) (by omega)
        (next.1, w :: next.2.1, backoff :: next.2.2)
termination_by t _ _ => deadline - t
decreasing_by omega

/-- The five pre-registered lock names
(`crates/bootstrap-repo-cli/src/lock.rs` lines 32-36, 59-73). -/
def lockNames : List String :=
  ["brew_lock", "apt_lock", "cache_lock", "venv_lock", "package_manager_lock"]

/-- `LockManager::acquire` (`crates/bootstrap-repo-cli/src/lock.rs`
lines 81-138): reject unknown lock names immediately; otherwise poll
with per-attempt timeout starting at 100 ms under the effective
deadline — 60 s in CI mode, else `max_wait` capped at 180 s. -/
def LockManager.acquire (freeAt : Option Nat) (lock : String) (max_wait : Nat)
    (ci_mode : Bool) : LockOutcome × List Nat × List Nat :=
  if lockNames.contains lock then
    let deadline := if ci_mode then 60000 else min max_wait 180000
    acquireLoop freeAt deadline lock 0 100 (by omega)
  else (.unknownLock lock, [], [])

/-- What the filesystem holds at the checkpoint path, as
`Checkpoint::load` distinguishes it: no file, a file that fails
`read_to_string`, or a file with text content. -/
inductive FileState where
  | missing
  | unreadable (msg : String)
  | content (text : String)
deriving DecidableEq, Repr

/-- `Checkpoint` (`checkpoint.rs` lines 39-52).  The stored
`plan_hash` is a plan hash in the model's representation; the
timestamp is opaque. -/
structure Checkpoint where
  timestamp : Nat
  plan_hash : List HashToken
  completed_steps : List String
  failed_steps : List String
deriving DecidableEq, Repr

/-- `Checkpoint::new` (`checkpoint.rs` lines 64-71). -/
def Checkpoint.new (now : Nat) (plan : ExecutionPlan) : Checkpoint :=
  ⟨now, plan.compute_hash, [], []⟩

/-- `Checkpoint::load` (`checkpoint.rs` lines 125-145), over an
abstract filesystem state.  `cacheDirAvailable` models whether
`dirs::cache_dir()` returned a directory (`default_checkpoint_path`
errors otherwise); `parse` models `serde_json::from_str`.  A missing
file is `Ok(None)`; an unreadable or unparseable file is a
`ConfigError`. -/
def Checkpoint.load (parse : String → Option Checkpoint)
    (cacheDirAvailable : Bool) (file : FileState) :
    Except BootstrapError (Option Checkpoint) :=
  if cacheDirAvailable then
    match file with
    | .missing => .ok none
    | .unreadable msg => .error (.ConfigError ("Failed to read checkpoint: " ++ msg))
    | .content text =>
      match parse text with
      | none => .error (.ConfigError "Failed to parse checkpoint")
      | some cp => .ok (some cp)
  else
    .error (.ConfigError "Cannot determine cache directory for checkpoint storage.")

/-- `Checkpoint::is_valid` (`checkpoint.rs` lines 156-158). -/
def Checkpoint.is_valid (cp : Checkpoint) (current_plan : ExecutionPlan) : Bool :=
  decide (cp.plan_hash = current_plan.compute_hash)

/-- The ids of a resolved capability sequence, in order. -/
def idsOf (l : List Capability) : List String := l.map Capability.id

/-- Dependencies-first, phrased over take-prefixes (the form used as
the resolver's loop invariant): every dependency of the element at
index `i` is the id of some element among the first `i`. -/
def DepsBeforeTake (l : List Capability) : Prop :=
  ∀ (i : Nat) (hi : i < l.length), ∀ d ∈ (l.get ⟨i, hi⟩).dependencies, d ∈ idsOf (l.take i)

/-- The invariant `resolve_deps_recursive` maintains on its state:
the resolved ids are duplicate-free, `visited` holds exactly the
resolved ids, and every element's dependencies precede it. -/
def StInv (st : ResolveState) : Prop :=
  (idsOf st.resolved).Nodup ∧
  (∀ x, x ∈ st.visited ↔ x ∈ idsOf st.resolved) ∧
  DepsBeforeTake st.resolved

/-- An acyclicity-and-registration certificate for the part of the
registry reachable from a request: a finite universe `U` of ids, each
registered, closed under dependencies, together with a rank that
strictly decreases along dependency edges.  For a finite registry such
a certificate exists exactly when every id reachable from the request
is registered and the reachable dependency graph is acyclic. -/
def GoodUniverse (r : InstallerRegistry) (rank : String → Nat) (U : List String) : Prop :=
  ∀ x ∈ U, ∃ c, r.get x = some c ∧ ∀ d ∈ c.dependencies, d ∈ U ∧ rank d < rank x

/-- Postcondition of a successful `resolve_deps_recursive` call on
`id`: the invariant is preserved, the resolved sequence is only
extended, the visited set only grows, `id` ends up visited, and every
newly visited id lies in `U` with rank at most `rank id`. -/
def RecPost (U : List String) (rank : String → Nat) (id : String)
    (st st' : ResolveState) : Prop :=
  StInv st' ∧ (∃ tail, st'.resolved = st.resolved ++ tail) ∧
  (∀ z ∈ st.visited, z ∈ st'.visited) ∧ id ∈ st'.visited ∧
  (∀ z ∈ st'.visited, z ∈ st.visited ∨ (z ∈ U ∧ rank z ≤ rank id))

/-- Tool `a`: no dependencies, not concurrency-safe. -/
def capA : Capability := ⟨"a", "Tool A", "", [], false⟩

/-- Tool `b`: depends on `a`, not concurrency-safe. -/
def capB : Capability := ⟨"b", "Tool B", "", ["a"], false⟩

/-- Tool `b` with its dependency list emptied (same id, name and
concurrency flag as `capB`). -/
def capBnodeps : Capability := ⟨"b", "Tool B", "", [], false⟩

/-- Tool `p`: no dependencies, not concurrency-safe. -/
def capP : Capability := ⟨"p", "Tool P", "", [], false⟩

/-- A two-tool registry: `b` depends on `a` (the "dev profile" example
of the spec's testable properties). -/
def regAB : InstallerRegistry := ⟨[capA, capB]⟩

/-- A three-tool registry: `p` and `a` independent, `b` depends on `a`. -/
def regPAB : InstallerRegistry := ⟨[capP, capA, capB]⟩

/-- A rank certifying `regAB` acyclic: `a` below everything else. -/
def rankAB : String → Nat := fun s => if s = "a" then 0 else 1

/-- A checksum-mismatch error, classified Security. -/
def secErr : AnyError := .bootstrap (.ChecksumMismatch "artifact" "abc" "def")

/-- An operation failing every invocation with a Security error. -/
def secOp : Nat → Except AnyError Nat := fun _ => .error secErr

/-- An operation failing every invocation with an io timeout
(classified Transient). -/
def timeoutOp : Nat → Except AnyError Nat := fun _ => .error (.io .TimedOut)

/-- A clock oracle that never advances (the budget is never hit). -/
def zeroElapsed : Nat → Nat := fun _ => 0

/-- A jitter oracle that adds no jitter. -/
def idJf : Nat → Nat → Nat := fun _ d => d

/-- The expected per-attempt timeout sequence of the lock loop: `n`
windows starting at `w`, each next window doubling, capped at
2000 ms. -/
def windowSeq (w : Nat) : Nat → List Nat
  | 0 => []
  | n + 1 => w :: windowSeq (min (w * 2) 2000) n

/-- A concrete checkpoint record. -/
def demoCheckpoint : Checkpoint := ⟨0, [], [], []⟩

/-- A concrete parser accepting exactly the text `"cp"`. -/
def demoParse : String → Option Checkpoint :=
  fun s => if s = "cp" then some demoCheckpoint else none

/-- An execution environment in which every lock acquisition and every
capability operation succeeds (no tool is detected as present). -/
def demoEnv : ExecEnv :=
  ⟨fun _ => .ok (), fun _ => .ok none,
   fun _ => .ok ⟨⟨1, 0, 0⟩, true, []⟩, fun _ => .ok ⟨true, none, []⟩⟩

/-- Like `demoEnv` except tool `a`'s detect operation returns an
error. -/
def detectFailAEnv : ExecEnv :=
  { demoEnv with detect :=
      fun id => if id = "a" then .error (.DetectionFailed "network unreachable")
                else .ok none }

/-- Like `demoEnv` except tool `a`'s install operation fails with exit
code 1. -/
def installFailAEnv : ExecEnv :=
  { demoEnv with install :=
      fun id => if id = "a" then .error (.InstallFailed "a" 1 "boom")
                else .ok ⟨⟨1, 0, 0⟩, true, []⟩ }

/-- Two steps equal in every field the executor reads (id, installer,
action, concurrency flag, required locks), with arbitrary declared
`dependencies`. -/
def SameExceptDeps (s t : Step) : Prop :=
  s.id = t.id ∧ s.installer = t.installer ∧ s.action = t.action ∧
  s.concurrency_safe = t.concurrency_safe ∧ s.required_locks = t.required_locks

/-- Two phases equal except for their steps' declared dependencies. -/
def PhaseSameExceptDeps (p q : Phase) : Prop :=
  p.name = q.name ∧ p.can_parallelize = q.can_parallelize ∧
  List.Forall₂ SameExceptDeps p.steps q.steps

/-- Two plans equal except for their steps' declared dependencies. -/
def PlanSameExceptDeps (p q : ExecutionPlan) : Prop :=
  p.total_steps = q.total_steps ∧ List.Forall₂ PhaseSameExceptDeps p.phases q.phases

end Bootstrap

/-! ## Theorems -/

namespace Bootstrap

theorem get_id_eq {r : InstallerRegistry} {x : String} {c : Capability}
    (h : r.get x = some c) : c.id = x := by
  unfold InstallerRegistry.get at h
  have h2 := List.find?_some h
  simpa using h2

theorem contains_iff_mem (l : List String) (x : String) :
    l.contains x = true ↔ x ∈ l := by
  simp [List.contains]

theorem resolveDepsRec_cyc_outOfFuel :
    ∀ (fuel : Nat) (st : ResolveState), st.visited.contains "a" = false →
      resolveDepsRec cycRegistry fuel "a" st = .outOfFuel := by
  intro fuel
  induction fuel with
  | zero => intro st h; rfl
  | succ n ih =>
    intro st h
    have hget : cycRegistry.get "a" =
        some ⟨"a", "Tool A", "cyclic test tool", ["a"], true⟩ := by rfl
    simp only [resolveDepsRec, h, Bool.false_eq_true, if_false, hget, goDeps, ih st h]

/-- C1: the claim says a cyclic capability graph makes
`resolve_dependencies` terminate with a `CyclicDependency` error.  The
code it describes tracks only a `visited` set, inserted into *after*
the dependency recursion, and no "currently expanding" set, so on the
cyclic registry `a → a` the recursion never terminates: for every
recursion-depth bound the model runs out of fuel, and in particular no
`CyclicDependency` error is ever produced.  (`BootstrapError::CyclicDependency`
is declared in `errors.rs` but constructed nowhere in the codebase.) -/
theorem resolver_cycle_diverges (fuel : Nat) :
    resolve_dependencies cycRegistry fuel ["a"] = .outOfFuel ∧
    resolve_dependencies cycRegistry fuel ["a"] ≠ .err .CyclicDependency := by
  have h0 : (⟨[], []⟩ : ResolveState).visited.contains "a" = false := by rfl
  have hmain : resolve_dependencies cycRegistry fuel ["a"] = .outOfFuel := by
    simp only [resolve_dependencies, goDeps, resolveDepsRec_cyc_outOfFuel fuel _ h0]
  exact ⟨hmain, by rw [hmain]; intro h; cases h⟩

theorem depsBeforeTake_append (l : List Capability) (c : Capability)
    (hl : DepsBeforeTake l) (hc : ∀ d ∈ c.dependencies, d ∈ idsOf l) :
    DepsBeforeTake (l ++ [c]) := by
  intro i hi d hd
  rcases lt_or_ge i l.length with h | h
  · have hget : (l ++ [c]).get ⟨i, hi⟩ = l.get ⟨i, h⟩ := by
      simp [List.getElem_append_left h]
    rw [hget] at hd
    have htake : (l ++ [c]).take i = l.take i := by
      rw [List.take_append_of_le_length (le_of_lt h)]
    rw [htake]
    exact hl i h d hd
  · have hlen : (l ++ [c]).length = l.length + 1 := by simp
    have hi2 : i = l.length := by omega
    subst hi2
    have hget : (l ++ [c]).get ⟨l.length, hi⟩ = c := by
      simp
    rw [hget] at hd
    have htake : (l ++ [c]).take l.length = l := by simp
    rw [htake]
    exact hc d hd

theorem depsBeforeTake_to_depsBefore (l : List Capability)
    (h : DepsBeforeTake l) : DepsBefore l := by
  intro i d hd
  have hm := h i.val i.isLt d hd
  unfold idsOf at hm
  rw [List.mem_map] at hm
  obtain ⟨c, hct, hcid⟩ := hm
  rw [List.mem_iff_get] at hct
  obtain ⟨j, hj⟩ := hct
  have hjlt : j.val < i.val := by
    have h2 := j.isLt
    simp [List.length_take] at h2
    omega
  have hjl : j.val < l.length := lt_trans hjlt i.isLt
  refine ⟨⟨j.val, hjl⟩, hjlt, ?_⟩
  have hgt : (l.take i.val).get j = l.get ⟨j.val, hjl⟩ := by
    simp [List.getElem_take']
  rw [hgt] at hj
  rw [hj]
  exact hcid

theorem goDeps_ok_sound (U : List String) (rank : String → Nat)
    (f : String → ResolveState → FuelResult ResolveState)
    (hf : ∀ id st st', id ∈ U → f id st = .ok st' → StInv st → RecPost U rank id st st') :
    ∀ (ds : List String) (st st' : ResolveState), (∀ d ∈ ds, d ∈ U) →
      goDeps f ds st = .ok st' → StInv st →
      StInv st' ∧ (∃ tail, st'.resolved = st.resolved ++ tail) ∧
      (∀ z ∈ st.visited, z ∈ st'.visited) ∧ (∀ d ∈ ds, d ∈ st'.visited) ∧
      (∀ z ∈ st'.visited, z ∈ st.visited ∨ (z ∈ U ∧ ∃ d ∈ ds, rank z ≤ rank d)) := by
  intro ds
  induction ds with
  | nil =>
    intro st st' _ hok hinv
    simp only [goDeps] at hok
    cases hok
    exact ⟨hinv, ⟨[], by simp⟩, fun z hz => hz, by simp, fun z hz => Or.inl hz⟩
  | cons d ds ih =>
    intro st st' hU hok hinv
    simp only [goDeps] at hok
    cases hfd : f d st with
    | ok st1 =>
      rw [hfd] at hok
      obtain ⟨hinv1, ⟨t1, ht1⟩, hmono1, hdvis, hnew1⟩ :=
        hf d st st1 (hU d (by simp)) hfd hinv
      obtain ⟨hinv2, ⟨t2, ht2⟩, hmono2, hdsvis, hnew2⟩ :=
        ih st1 st' (fun d2 hd2 => hU d2 (by simp [hd2])) hok hinv1
      refine ⟨hinv2, ⟨t1 ++ t2, by rw [ht2, ht1, List.append_assoc]⟩,
        fun z hz => hmono2 z (hmono1 z hz), ?_, ?_⟩
      · intro d2 hd2
        rcases List.mem_cons.mp hd2 with h | h
        · subst h; exact hmono2 _ hdvis
        · exact hdsvis _ h
      · intro z hz
        rcases hnew2 z hz with h | ⟨hzU, d2, hd2, hr⟩
        · rcases hnew1 z h with h2 | ⟨hzU, hr⟩
          · exact Or.inl h2
          · exact Or.inr ⟨hzU, d, by simp, hr⟩
        · exact Or.inr ⟨hzU, d2, by simp [hd2], hr⟩
    | err e => rw [hfd] at hok; cases hok
    | outOfFuel => rw [hfd] at hok; cases hok

theorem resolveDepsRec_ok_sound (r : InstallerRegistry) (U : List String)
    (rank : String → Nat) (hgood : GoodUniverse r rank U) :
    ∀ (fuel : Nat) (id : String) (st st' : ResolveState), id ∈ U →
      resolveDepsRec r fuel id st = .ok st' → StInv st → RecPost U rank id st st' := by
  intro fuel
  induction fuel with
  | zero => intro id st st' _ hok _; cases hok
  | succ n ih =>
    intro id st st' hidU hok hinv
    simp only [resolveDepsRec] at hok
    by_cases hvis : st.visited.contains id = true
    · rw [if_pos hvis] at hok
      cases hok
      exact ⟨hinv, ⟨[], by simp⟩, fun z hz => hz,
        (contains_iff_mem _ _).mp hvis, fun z hz => Or.inl hz⟩
    · rw [if_neg hvis] at hok
      obtain ⟨c, hgetc, hdeps⟩ := hgood id hidU
      rw [hgetc] at hok
      dsimp only at hok
      cases hgd : goDeps (resolveDepsRec r n) c.dependencies st with
      | ok st2 =>
        rw [hgd] at hok
        cases hok
        have hUds : ∀ d ∈ c.dependencies, d ∈ U := fun d hd => (hdeps d hd).1
        obtain ⟨hinv2, ⟨t2, ht2⟩, hmono2, hdsvis, hnew2⟩ :=
          goDeps_ok_sound U rank (resolveDepsRec r n) ih c.dependencies st st2 hUds hgd hinv
        have hcid : c.id = id := get_id_eq hgetc
        have hmemvis : id ∉ st.visited := fun h => hvis ((contains_iff_mem _ _).mpr h)
        have hidnot : id ∉ st2.visited := by
          intro hmem
          rcases hnew2 id hmem with h | ⟨_, d, hd, hr⟩
          · exact hmemvis h
          · exact absurd hr (not_le.mpr (hdeps d hd).2)
        have hidnotres : id ∉ idsOf st2.resolved :=
          fun h => hidnot ((hinv2.2.1 id).mpr h)
        have hidsapp : idsOf (st2.resolved ++ [c]) = idsOf st2.resolved ++ [id] := by
          simp [idsOf, hcid]
        refine ⟨⟨?_, ?_, ?_⟩, ⟨t2 ++ [c], by rw [ht2, List.append_assoc]⟩,
          fun z hz => List.mem_cons_of_mem _ (hmono2 z hz), List.mem_cons_self _ _, ?_⟩
        · rw [hidsapp]
          exact List.Nodup.append hinv2.1 (List.nodup_singleton id)
            (by simpa using hidnotres)
        · intro x
          rw [hidsapp]
          simp only [List.mem_cons, List.mem_append, List.mem_singleton,
            List.not_mem_nil, or_false]
          constructor
          · intro h
            rcases h with h | h
            · exact Or.inr h
            · exact Or.inl ((hinv2.2.1 x).mp h)
          · intro h
            rcases h with h | h
            · exact Or.inr ((hinv2.2.1 x).mpr h)
            · exact Or.inl h
        · exact depsBeforeTake_append st2.resolved c hinv2.2.2
            (fun d hd => (hinv2.2.1 d).mp (hdsvis d hd))
        · intro z hz
          rcases List.mem_cons.mp hz with h | h
          · subst h; exact Or.inr ⟨hidU, le_refl _⟩
          · rcases hnew2 z h with h2 | ⟨hzU, d, hd, hr⟩
            · exact Or.inl h2
            · exact Or.inr ⟨hzU, le_of_lt (lt_of_le_of_lt hr (hdeps d hd).2)⟩
      | err e => rw [hgd] at hok; cases hok
      | outOfFuel => rw [hgd] at hok; cases hok

theorem goDeps_terminates (f : String → ResolveState → FuelResult ResolveState) :
    ∀ (ds : List String), (∀ d ∈ ds, ∀ st, ∃ st', f d st = .ok st') →
      ∀ st, ∃ st', goDeps f ds st = .ok st' := by
  intro ds
  induction ds with
  | nil => intro _ st; exact ⟨st, rfl⟩
  | cons d ds ih =>
    intro hf st
    obtain ⟨st1, h1⟩ := hf d (by simp) st
    obtain ⟨st2, h2⟩ := ih (fun d2 hd2 st0 => hf d2 (by simp [hd2]) st0) st1
    refine ⟨st2, ?_⟩
    simp only [goDeps]
    rw [h1]
    exact h2

theorem resolveDepsRec_terminates (r : InstallerRegistry) (U : List String)
    (rank : String → Nat) (hgood : GoodUniverse r rank U) :
    ∀ (fuel : Nat) (id : String) (st : ResolveState), id ∈ U → rank id < fuel →
      ∃ st', resolveDepsRec r fuel id st = .ok st' := by
  intro fuel
  induction fuel using Nat.strong_induction_on with
  | _ fuel ih =>
    intro id st hidU hrank
    cases fuel with
    | zero => omega
    | succ n =>
      by_cases hvis : st.visited.contains id = true
      · exact ⟨st, by simp only [resolveDepsRec, if_pos hvis]⟩
      · obtain ⟨c, hgetc, hdeps⟩ := hgood id hidU
        have hterm : ∀ d ∈ c.dependencies, ∀ st0, ∃ st1,
            resolveDepsRec r n d st0 = .ok st1 := by
          intro d hd st0
          have h2 := (hdeps d hd).2
          exact ih n (by omega) d st0 (hdeps d hd).1 (by omega)
        obtain ⟨st2, hgd⟩ := goDeps_terminates (resolveDepsRec r n) c.dependencies hterm st
        refine ⟨⟨st2.resolved ++ [c], id :: st2.visited⟩, ?_⟩
        simp only [resolveDepsRec, if_neg hvis, hgetc]
        rw [hgd]

theorem stinv_empty : StInv ⟨[], []⟩ := by
  refine ⟨List.nodup_nil, fun x => ?_, fun i hi => ?_⟩
  · simp [idsOf]
  · simp [List.length_nil] at hi

theorem resolve_dependencies_ok_props (r : InstallerRegistry) (ids : List String)
    (U : List String) (rank : String → Nat)
    (hgood : GoodUniverse r rank U) (hU : ∀ i ∈ ids, i ∈ U)
    (fuel : Nat) (l : List Capability)
    (hok : resolve_dependencies r fuel ids = .ok l) :
    NoDupIds l ∧ DepsBefore l := by
  unfold resolve_dependencies at hok
  cases hgd : goDeps (resolveDepsRec r fuel) ids ⟨[], []⟩ with
  | ok st =>
    rw [hgd] at hok
    cases hok
    obtain ⟨hinv, _, _, _, _⟩ :=
      goDeps_ok_sound U rank (resolveDepsRec r fuel)
        (resolveDepsRec_ok_sound r U rank hgood fuel) ids ⟨[], []⟩ st hU hgd stinv_empty
    exact ⟨hinv.1, depsBeforeTake_to_depsBefore _ hinv.2.2⟩
  | err e => rw [hgd] at hok; cases hok
  | outOfFuel => rw [hgd] at hok; cases hok

theorem mem_le_foldr_max (l : List Nat) (x : Nat) (h : x ∈ l) :
    x ≤ l.foldr max 0 := by
  induction l with
  | nil => cases h
  | cons a l ih =>
    rcases List.mem_cons.mp h with h2 | h2
    · subst h2; exact le_max_left _ _
    · exact le_trans (ih h2) (le_max_right _ _)

theorem resolve_dependencies_terminates (r : InstallerRegistry) (ids : List String)
    (U : List String) (rank : String → Nat)
    (hgood : GoodUniverse r rank U) (hU : ∀ i ∈ ids, i ∈ U) :
    ∃ fuel l, resolve_dependencies r fuel ids = .ok l := by
  refine ⟨(ids.map rank).foldr max 0 + 1, ?_⟩
  have hf : ∀ i ∈ ids, ∀ st, ∃ st',
      resolveDepsRec r ((ids.map rank).foldr max 0 + 1) i st = .ok st' := by
    intro i hi st
    have hle : rank i ≤ (ids.map rank).foldr max 0 :=
      mem_le_foldr_max _ _ (List.mem_map_of_mem rank hi)
    exact resolveDepsRec_terminates r U rank hgood _ i st (hU i hi) (by omega)
  obtain ⟨st, hgd⟩ := goDeps_terminates _ ids hf ⟨[], []⟩
  refine ⟨st.resolved, ?_⟩
  unfold resolve_dependencies
  rw [hgd]

/-- C3: over a registry whose dependency graph, restricted to what the
request can reach, is acyclic and fully registered (witnessed by a
dependency-closed universe `U` with a strictly decreasing rank),
`resolve_dependencies` succeeds for sufficient fuel, and every
sequence it returns has no id twice and lists every capability's
declared dependencies strictly before it. -/
theorem resolver_no_dups_and_deps_first (r : InstallerRegistry) (ids : List String)
    (U : List String) (rank : String → Nat)
    (hgood : GoodUniverse r rank U) (hU : ∀ i ∈ ids, i ∈ U) :
    (∀ fuel l, resolve_dependencies r fuel ids = .ok l → NoDupIds l ∧ DepsBefore l) ∧
    (∃ fuel l, resolve_dependencies r fuel ids = .ok l ∧ NoDupIds l ∧ DepsBefore l) := by
  constructor
  · intro fuel l hok
    exact resolve_dependencies_ok_props r ids U rank hgood hU fuel l hok
  · obtain ⟨fuel, l, hok⟩ := resolve_dependencies_terminates r ids U rank hgood hU
    exact ⟨fuel, l, hok, resolve_dependencies_ok_props r ids U rank hgood hU fuel l hok⟩

/-- Witness for C3 at the concrete two-tool registry (`b` depends on
`a`), requesting `["b", "a"]`. -/
theorem resolver_no_dups_and_deps_first_witness :
    GoodUniverse regAB rankAB ["a", "b"] ∧
    (∃ fuel l, resolve_dependencies regAB fuel ["b", "a"] = .ok l ∧ NoDupIds l ∧ DepsBefore l) := by
  have hgood : GoodUniverse regAB rankAB ["a", "b"] := by
    intro x hx
    fin_cases hx
    · exact ⟨⟨"a", "Tool A", "", [], false⟩, rfl, by decide⟩
    · exact ⟨⟨"b", "Tool B", "", ["a"], false⟩, rfl, by decide⟩
  have hU : ∀ i ∈ ["b", "a"], i ∈ ["a", "b"] := by decide
  exact ⟨hgood,
    (resolver_no_dups_and_deps_first regAB ["b", "a"] ["a", "b"] rankAB hgood hU).2⟩

end Bootstrap

namespace Bootstrap

theorem retryGo_stop_nontransient {α : Type} (p : RetryPolicy)
    (op : Nat → Except AnyError α) (elapsed : Nat → Nat) (jf : Nat → Nat → Nat)
    (e : AnyError) (hmax : 1 < p.max_attempts) (hop : op 1 = .error e)
    (hclass : classify_error e = .Security ∨ classify_error e = .Permanent) :
    retry_with_backoff p op elapsed jf = (.error e, 1, []) := by
  unfold retry_with_backoff
  unfold retryGo
  dsimp only
  rw [hop]
  dsimp only
  rw [dif_neg (by omega)]
  rcases hclass with h | h <;> rw [h]

theorem retryGo_all_transient {α : Type} (p : RetryPolicy)
    (op : Nat → Except AnyError α) (elapsed : Nat → Nat) (jf : Nat → Nat → Nat)
    (hjit : p.jitter = false)
    (hbudget : ∀ n, elapsed n < p.max_total_time) :
    ∀ k attempts delay, p.max_attempts - attempts = k → attempts < p.max_attempts →
      (∀ n, attempts < n → n ≤ p.max_attempts →
        ∃ e, op n = .error e ∧ classify_error e = .Transient) →
      (retryGo p op elapsed jf attempts delay).2.1 = p.max_attempts ∧
      (retryGo p op elapsed jf attempts delay).2.2 =
        backoffSeq delay p.max_delay (p.max_attempts - attempts - 1) := by
  intro k
  induction k using Nat.strong_induction_on with
  | _ k ih =>
    intro attempts delay hk hlt hfail
    obtain ⟨e, hop, hcl⟩ := hfail (attempts + 1) (by omega) (by omega)
    unfold retryGo
    dsimp only
    rw [hop]
    dsimp only
    by_cases hstop : p.max_attempts ≤ attempts + 1
    · rw [dif_pos hstop]
      have : p.max_attempts = attempts + 1 := by omega
      constructor
      · simp [this]
      · simp only [this]
        have : attempts + 1 - attempts - 1 = 0 := by omega
        rw [this]
        rfl
    · rw [dif_neg hstop]
      rw [hcl]
      rw [if_neg (by have := hbudget (attempts + 1); omega)]
      rw [hjit]
      simp only [Bool.false_eq_true, if_false]
      have hrec := ih (p.max_attempts - (attempts + 1)) (by omega) (attempts + 1)
        (min (delay * 2) p.max_delay) rfl (by omega)
        (fun n hn1 hn2 => hfail n (by omega) hn2)
      refine ⟨hrec.1, ?_⟩
      simp only [hrec.2]
      have hn : p.max_attempts - attempts - 1 = (p.max_attempts - (attempts + 1) - 1) + 1 := by
        omega
      rw [hn]
      rfl

/-- C4: a wrapped operation whose first failure is classified Security
or Permanent is invoked exactly once even when `max_attempts` allows
more, and the retry loop returns that error with no sleep; an
operation that keeps failing with Transient errors, within the time
budget, is invoked exactly `max_attempts` times, with the sleeps
before each retry doubling from `initial_delay` and capped at
`max_delay` (stated for the un-jittered case, where the slept delay
equals the base delay). -/
theorem retry_respects_classification {α : Type} (p : RetryPolicy)
    (op : Nat → Except AnyError α) (elapsed : Nat → Nat) (jf : Nat → Nat → Nat) :
    (∀ e, 1 < p.max_attempts → op 1 = .error e →
      (classify_error e = .Security ∨ classify_error e = .Permanent) →
      retry_with_backoff p op elapsed jf = (.error e, 1, [])) ∧
    (p.jitter = false → 1 ≤ p.max_attempts →
      (∀ n, 1 ≤ n → n ≤ p.max_attempts →
        ∃ e, op n = .error e ∧ classify_error e = .Transient) →
      (∀ n, elapsed n < p.max_total_time) →
      (retry_with_backoff p op elapsed jf).2.1 = p.max_attempts ∧
      (retry_with_backoff p op elapsed jf).2.2 =
        backoffSeq p.initial_delay p.max_delay (p.max_attempts - 1)) := by
  constructor
  · intro e hmax hop hcl
    exact retryGo_stop_nontransient p op elapsed jf e hmax hop hcl
  · intro hjit hmax hfail hbudget
    have h := retryGo_all_transient p op elapsed jf hjit hbudget
      p.max_attempts 0 p.initial_delay (by omega) (by omega)
      (fun n hn1 hn2 => hfail n (by omega) hn2)
    exact ⟨h.1, by simpa using h.2⟩

/-- Witness for C4: the network policy (3 attempts) stops after one
invocation on a checksum mismatch; the package-manager policy
(2 attempts, no jitter) performs both invocations on persistent io
timeouts, sleeping 2000 ms once. -/
theorem retry_respects_classification_witness :
    (retry_with_backoff RetryPolicy.network_default secOp zeroElapsed idJf =
      (.error secErr, 1, [])) ∧
    ((retry_with_backoff RetryPolicy.package_manager_default timeoutOp zeroElapsed idJf).2.1 = 2 ∧
     (retry_with_backoff RetryPolicy.package_manager_default timeoutOp zeroElapsed idJf).2.2 =
       backoffSeq 2000 10000 1) := by
  constructor
  · exact (retry_respects_classification RetryPolicy.network_default secOp zeroElapsed idJf).1
      secErr (by decide) rfl (Or.inl rfl)
  · exact (retry_respects_classification RetryPolicy.package_manager_default timeoutOp
      zeroElapsed idJf).2 rfl (by decide)
      (fun n _ _ => ⟨.io .TimedOut, rfl, rfl⟩)
      (fun n => by simp [zeroElapsed, RetryPolicy.package_manager_default])

end Bootstrap
namespace Bootstrap

theorem windowSeq_succ_ne_nil (w n : Nat) : windowSeq w (n + 1) ≠ [] := by
  simp [windowSeq]

theorem acquireLoop_none_times_out (deadline : Nat) (lock : String) :
    ∀ k t w (hw : 0 < w), deadline - t = k → w ≤ 2000 → t < deadline + 2000 →
      ∃ e n, 1 ≤ n ∧
        acquireLoop none deadline lock t w hw =
          (.timeoutErr lock e, windowSeq w n, (windowSeq w n).dropLast) ∧
        deadline ≤ e ∧ e < deadline + 4000 := by
  intro k
  induction k using Nat.strong_induction_on with
  | _ k ih =>
    intro t w hw hk hcap ht
    unfold acquireLoop
    have hfree : lockFreeWithin none t w = false := rfl
    rw [hfree]
    simp only [Bool.false_eq_true, if_false]
    by_cases hstop : deadline ≤ t + w
    · rw [dif_pos hstop]
      exact ⟨t + w, 1, le_refl 1, by simp [windowSeq], hstop, by omega⟩
    · rw [dif_neg hstop]
      have hlt : t < deadline := by omega
      obtain ⟨e, n, hn, heq, hle, hbound⟩ :=
        ih (deadline - (t + w + min w 2000)) (by omega)
          (t + w + min w 2000) (min (w * 2) 2000) (by omega) rfl
          (by omega) (by omega)
      refine ⟨e, n + 1, by omega, ?_, hle, hbound⟩
      rw [heq]
      have hnn : windowSeq (min (w * 2) 2000) n ≠ [] := by
        cases n with
        | zero => omega
        | succ m => exact windowSeq_succ_ne_nil _ m
      have hmin : min w 2000 = w := Nat.min_eq_left hcap
      simp only [windowSeq, hmin]
      rw [List.dropLast_cons_of_ne_nil hnn]

/-- C7: `LockManager::acquire` polls with per-attempt timeouts
starting at 100 ms and doubling up to the 2 s cap, sleeping the same
backoff between attempts, under an overall deadline of 60 s in CI mode
and otherwise `max_wait` capped at 180 s; when the lock never becomes
free it terminates with a timeout error naming the lock and carrying
an elapsed time at or just past the deadline.  In particular,
acquiring a lock held until 500 ms with `max_wait` 100 ms outside CI
fails after exactly 100 ms. -/
theorem lock_acquire_deadline_and_backoff :
    (∀ lock max_wait ci, lock ∈ lockNames →
      ∃ e n, 1 ≤ n ∧
        LockManager.acquire none lock max_wait ci =
          (.timeoutErr lock e, windowSeq 100 n, (windowSeq 100 n).dropLast) ∧
        (if ci then 60000 else min max_wait 180000) ≤ e ∧
        e < (if ci then 60000 else min max_wait 180000) + 4000) ∧
    LockManager.acquire (some 500) "package_manager_lock" 100 false =
      (.timeoutErr "package_manager_lock" 100, [100], []) := by
  constructor
  · intro lock max_wait ci hmem
    have hmem2 : lockNames.contains lock = true := (contains_iff_mem _ _).mpr hmem
    unfold LockManager.acquire
    rw [if_pos hmem2]
    exact acquireLoop_none_times_out _ lock _ 0 100 (by omega) rfl (by omega) (by omega)
  · unfold LockManager.acquire
    rw [if_pos (by decide)]
    unfold acquireLoop
    norm_num [lockFreeWithin]

/-- Witness for C7 at a concrete lock name and wait budget. -/
theorem lock_acquire_deadline_and_backoff_witness :
    ("apt_lock" ∈ lockNames) ∧
    (∃ e n, 1 ≤ n ∧
      LockManager.acquire none "apt_lock" 1000 false =
        (.timeoutErr "apt_lock" e, windowSeq 100 n, (windowSeq 100 n).dropLast) ∧
      (if false then 60000 else min 1000 180000) ≤ e ∧
      e < (if false then 60000 else min 1000 180000) + 4000) := by
  have hmem : "apt_lock" ∈ lockNames := by decide
  exact ⟨hmem, lock_acquire_deadline_and_backoff.1 "apt_lock" 1000 false hmem⟩

end Bootstrap
namespace Bootstrap

/-- C8: `Checkpoint::load` returns `Ok(None)` when no checkpoint file
exists; an existing file that cannot be read, or whose content fails
to parse, yields an error (never `None`); a successfully read and
parsed file yields the parsed checkpoint; and `is_valid` holds exactly
when the stored `plan_hash` equals the current plan's computed hash. -/
theorem checkpoint_load_and_validity (parse : String → Option Checkpoint) :
    (Checkpoint.load parse true .missing = .ok none) ∧
    (∀ msg, ∃ e, Checkpoint.load parse true (.unreadable msg) = .error e) ∧
    (∀ text, parse text = none → ∃ e, Checkpoint.load parse true (.content text) = .error e) ∧
    (∀ text cp, parse text = some cp →
      Checkpoint.load parse true (.content text) = .ok (some cp)) ∧
    (∀ (cp : Checkpoint) (plan : ExecutionPlan),
      Checkpoint.is_valid cp plan = true ↔ cp.plan_hash = plan.compute_hash) := by
  refine ⟨rfl, fun msg => ⟨_, rfl⟩, ?_, ?_, ?_⟩
  · intro text hnone
    exact ⟨.ConfigError "Failed to parse checkpoint", by simp [Checkpoint.load, hnone]⟩
  · intro text cp hsome
    simp [Checkpoint.load, hsome]
  · intro cp plan
    simp [Checkpoint.is_valid]

/-- Witness for C8 at a concrete parser and plan. -/
theorem checkpoint_load_and_validity_witness :
    (Checkpoint.load demoParse true .missing = .ok none) ∧
    (∃ e, Checkpoint.load demoParse true (.unreadable "io failure") = .error e) ∧
    (∃ e, Checkpoint.load demoParse true (.content "garbage") = .error e) ∧
    (Checkpoint.load demoParse true (.content "cp") = .ok (some demoCheckpoint)) ∧
    (Checkpoint.is_valid demoCheckpoint (ExecutionPlan.ofInstallers []) = true ↔
      demoCheckpoint.plan_hash = (ExecutionPlan.ofInstallers []).compute_hash) := by
  refine ⟨(checkpoint_load_and_validity demoParse).1,
    (checkpoint_load_and_validity demoParse).2.1 "io failure",
    (checkpoint_load_and_validity demoParse).2.2.1 "garbage" (by decide),
    (checkpoint_load_and_validity demoParse).2.2.2.1 "cp" demoCheckpoint (by decide),
    (checkpoint_load_and_validity demoParse).2.2.2.2 demoCheckpoint _⟩

theorem hash_phases_eq : ∀ (ps qs : List Phase),
    ps.map Phase.name = qs.map Phase.name →
    ps.map (fun ph => ph.steps.map Step.id) = qs.map (fun ph => ph.steps.map Step.id) →
    ps.flatMap (fun ph => HashToken.str ph.name :: ph.steps.map (fun s => HashToken.str s.id)) =
      qs.flatMap (fun ph => HashToken.str ph.name :: ph.steps.map (fun s => HashToken.str s.id)) := by
  intro ps
  induction ps with
  | nil =>
    intro qs h1 _
    cases qs with
    | nil => rfl
    | cons q qs => simp at h1
  | cons p ps ih =>
    intro qs h1 h2
    cases qs with
    | nil => simp at h1
    | cons q qs =>
      simp only [List.map_cons, List.cons.injEq] at h1 h2
      simp only [List.flatMap_cons]
      rw [ih qs h1.2 h2.2, h1.1]
      have hsteps : p.steps.map (fun s => HashToken.str s.id) =
          q.steps.map (fun s => HashToken.str s.id) := by
        have hp : p.steps.map (fun s => HashToken.str s.id) =
            (p.steps.map Step.id).map HashToken.str := by rw [List.map_map]; rfl
        have hq : q.steps.map (fun s => HashToken.str s.id) =
            (q.steps.map Step.id).map HashToken.str := by rw [List.map_map]; rfl
        rw [hp, hq, h2.1]
      rw [hsteps]

/-- C5: `compute_hash` depends only on the total step count, the
phase names and the step ids in stable order — two plans that agree on
those (even if they differ elsewhere, e.g. in declared dependencies or
lock lists) hash equal — and appending a tool's capability (which adds
its detect/install/verify steps) always changes the hash input.  The
Rust hash is a fixed deterministic pure function (a `DefaultHasher`)
of exactly this modelled token sequence. -/
theorem plan_hash_deterministic_and_sensitive :
    (∀ p q : ExecutionPlan, p.total_steps = q.total_steps →
      p.phases.map Phase.name = q.phases.map Phase.name →
      p.phases.map (fun ph => ph.steps.map Step.id) =
        q.phases.map (fun ph => ph.steps.map Step.id) →
      p.compute_hash = q.compute_hash) ∧
    (∀ (installers : List Capability) (t : Capability),
      (ExecutionPlan.ofInstallers installers).compute_hash ≠
        (ExecutionPlan.ofInstallers (installers ++ [t])).compute_hash) := by
  constructor
  · intro p q htot hnames hids
    unfold ExecutionPlan.compute_hash
    rw [htot, hash_phases_eq p.phases q.phases hnames hids]
  · intro installers t h
    unfold ExecutionPlan.compute_hash ExecutionPlan.ofInstallers at h
    have hhead := (List.cons.injEq _ _ _ _).mp h |>.1
    have : installers.length + installers.length + installers.length =
        (installers ++ [t]).length + (installers ++ [t]).length + (installers ++ [t]).length := by
      exact HashToken.nat.inj hhead
    simp only [List.length_append, List.length_cons, List.length_nil] at this
    omega

/-- Witness for C5: the plans for `[a, b]` and `[a, b-without-deps]`
differ as plans but hash equal; adding tool `b` to the plan for `[a]`
changes the hash. -/
theorem plan_hash_deterministic_and_sensitive_witness :
    ((ExecutionPlan.ofInstallers [capA, capB]).total_steps =
        (ExecutionPlan.ofInstallers [capA, capBnodeps]).total_steps ∧
     (ExecutionPlan.ofInstallers [capA, capB]).phases.map Phase.name =
        (ExecutionPlan.ofInstallers [capA, capBnodeps]).phases.map Phase.name ∧
     (ExecutionPlan.ofInstallers [capA, capB]).phases.map (fun ph => ph.steps.map Step.id) =
        (ExecutionPlan.ofInstallers [capA, capBnodeps]).phases.map (fun ph => ph.steps.map Step.id) ∧
     ExecutionPlan.ofInstallers [capA, capB] ≠ ExecutionPlan.ofInstallers [capA, capBnodeps] ∧
     (ExecutionPlan.ofInstallers [capA, capB]).compute_hash =
        (ExecutionPlan.ofInstallers [capA, capBnodeps]).compute_hash) ∧
    (ExecutionPlan.ofInstallers [capA]).compute_hash ≠
      (ExecutionPlan.ofInstallers [capA, capB]).compute_hash := by
  constructor
  · refine ⟨by decide, by decide, by decide, by decide, ?_⟩
    exact plan_hash_deterministic_and_sensitive.1 _ _ (by decide) (by decide) (by decide)
  · exact plan_hash_deterministic_and_sensitive.2 [capA] capB

end Bootstrap
namespace Bootstrap

/-- C9: a Detect step whose detect operation returns without error
always produces a StepResult with `success = true`; whether a version
was found shows up only in the `verify_result` payload, whose
`success` field is `version_opt.isSome` — absence of the tool is a
normal negative payload, never a step failure. -/
theorem detect_step_reports_absence_as_negative (env : ExecEnv) (r : InstallerRegistry)
    (step : Step) (c : Capability) (vopt : Option SemVersion)
    (hact : step.action = .Detect)
    (hlocks : acquireLocks env step.required_locks = .ok ())
    (hreg : r.get step.installer = some c)
    (hdet : env.detect step.installer = .ok vopt) :
    executeStepImpl env r step =
      .ok ⟨step.id, step.installer, true, 0, none, none, some ⟨vopt.isSome, vopt, []⟩⟩ := by
  unfold executeStepImpl
  simp only [hlocks, hreg, hact, hdet]

/-- Witness for C9: detecting absent tool `a` yields a successful
step whose verify payload reports `success = false`. -/
theorem detect_step_reports_absence_as_negative_witness :
    (detectStep capA).action = .Detect ∧
    executeStepImpl demoEnv regAB (detectStep capA) =
      .ok ⟨(detectStep capA).id, (detectStep capA).installer, true, 0, none, none,
           some ⟨(none : Option SemVersion).isSome, none, []⟩⟩ := by
  exact ⟨rfl, detect_step_reports_absence_as_negative demoEnv regAB (detectStep capA)
    capA none rfl rfl rfl rfl⟩

theorem executeStepImpl_same_except_deps (env : ExecEnv) (r : InstallerRegistry)
    {s t : Step} (h : SameExceptDeps s t) :
    executeStepImpl env r s = executeStepImpl env r t := by
  obtain ⟨h1, h2, h3, h4, h5⟩ := h
  cases s
  cases t
  simp only at h1 h2 h3 h4 h5
  subst h1; subst h2; subst h3; subst h4; subst h5
  rfl

theorem executeSequential_same_except_deps (env : ExecEnv) (r : InstallerRegistry)
    {ss ts : List Step} (h : List.Forall₂ SameExceptDeps ss ts) :
    executeSequential env r ss = executeSequential env r ts := by
  induction h with
  | nil => rfl
  | cons hst hrest ih =>
    simp only [executeSequential]
    rw [executeStepImpl_same_except_deps env r hst, ih]

theorem executeParallel_same_except_deps (env : ExecEnv) (r : InstallerRegistry)
    {ss ts : List Step} (h : List.Forall₂ SameExceptDeps ss ts) :
    executeParallel env r ss = executeParallel env r ts := by
  unfold executeParallel
  congr 1
  induction h with
  | nil => rfl
  | cons hst hrest ih =>
    simp only [List.map_cons]
    rw [executeStepImpl_same_except_deps env r hst, ih]

theorem executePhase_same_except_deps (env : ExecEnv) (r : InstallerRegistry)
    {p q : Phase} (h : PhaseSameExceptDeps p q) :
    executePhase env r p = executePhase env r q := by
  obtain ⟨hn, hpar, hsteps⟩ := h
  unfold executePhase
  rw [hpar]
  by_cases hq : q.can_parallelize = true
  · rw [if_pos hq, if_pos hq]
    exact executeParallel_same_except_deps env r hsteps
  · rw [if_neg hq, if_neg hq]
    exact executeSequential_same_except_deps env r hsteps

theorem executePhases_same_except_deps (env : ExecEnv) (r : InstallerRegistry)
    {ps qs : List Phase} (h : List.Forall₂ PhaseSameExceptDeps ps qs) :
    executePhases env r ps = executePhases env r qs := by
  induction h with
  | nil => rfl
  | cons hpq hrest ih =>
    simp only [executePhases]
    rw [executePhase_same_except_deps env r hpq, ih]

/-- C10: the executor never reads a step's declared `dependencies`
list: plans that differ only in those lists execute identically, for
every environment and registry.  Within-phase order therefore comes
only from list position (sequential phases) or phase membership
(parallel phases). -/
theorem executor_ignores_declared_dependencies (env : ExecEnv) (r : InstallerRegistry)
    {p q : ExecutionPlan} (h : PlanSameExceptDeps p q) :
    Executor.execute env r p = Executor.execute env r q := by
  obtain ⟨-, hph⟩ := h
  unfold Executor.execute
  exact executePhases_same_except_deps env r hph

/-- Witness for C10: the plans for `[a, b]` and `[a, b-without-deps]`
differ (in the install step's dependencies) yet execute identically. -/
theorem executor_ignores_declared_dependencies_witness :
    PlanSameExceptDeps (ExecutionPlan.ofInstallers [capA, capB])
      (ExecutionPlan.ofInstallers [capA, capBnodeps]) ∧
    ExecutionPlan.ofInstallers [capA, capB] ≠ ExecutionPlan.ofInstallers [capA, capBnodeps] ∧
    Executor.execute demoEnv regAB (ExecutionPlan.ofInstallers [capA, capB]) =
      Executor.execute demoEnv regAB (ExecutionPlan.ofInstallers [capA, capBnodeps]) := by
  have hsame : PlanSameExceptDeps (ExecutionPlan.ofInstallers [capA, capB])
      (ExecutionPlan.ofInstallers [capA, capBnodeps]) := by
    refine ⟨rfl, ?_⟩
    simp only [ExecutionPlan.ofInstallers, buildPhases]
    refine .cons ⟨rfl, rfl, ?_⟩ (.cons ⟨rfl, rfl, ?_⟩ (.cons ⟨rfl, rfl, ?_⟩ .nil)) <;>
      exact .cons (by constructor <;> simp [detectStep, installStep, verifyStep, capA, capB,
        capBnodeps, SameExceptDeps]) (.cons (by constructor <;> simp [detectStep, installStep,
        verifyStep, capA, capB, capBnodeps, SameExceptDeps]) .nil)
  exact ⟨hsame, by decide,
    executor_ignores_declared_dependencies demoEnv regAB hsame⟩

end Bootstrap
namespace Bootstrap

/-- C2 counterexample: in a parallel Detection phase of two steps
where the first step's operation returns an error and the second's
succeeds, `execute_parallel` returns the error — the caller does not
receive a StepResult list for the phase's steps, contradicting the
claim that one step's error never aborts the phase. -/
theorem parallel_error_aborts_collection_cex :
    executeParallel detectFailAEnv regAB [detectStep capA, detectStep capB] =
      .error (.DetectionFailed "network unreachable") := by
  rfl

/-- C2 amended: every step of a parallel phase is spawned and runs
regardless of its siblings, and when every step returns an Ok
StepResult (even one with `success = false`) the phase returns the
full result list in step order; but when some step returns an error,
the phase returns the first such error in step order and no result
list reaches the caller. -/
theorem parallel_phase_awaits_all_or_first_error (env : ExecEnv) (r : InstallerRegistry) :
    (∀ steps : List Step, (∀ s ∈ steps, ∃ res, executeStepImpl env r s = .ok res) →
      ∃ results, executeParallel env r steps = .ok results ∧
        List.Forall₂ (fun s res => executeStepImpl env r s = .ok res) steps results) ∧
    (∀ (pre : List Step) (s : Step) (post : List Step) (e : BootstrapError),
      (∀ s2 ∈ pre, ∃ res, executeStepImpl env r s2 = .ok res) →
      executeStepImpl env r s = .error e →
      executeParallel env r (pre ++ s :: post) = .error e) := by
  constructor
  · intro steps
    induction steps with
    | nil => intro _; exact ⟨[], rfl, .nil⟩
    | cons s rest ih =>
      intro hok
      obtain ⟨res, hres⟩ := hok s (by simp)
      obtain ⟨results, hrs, hfa⟩ := ih (fun s2 hs2 => hok s2 (by simp [hs2]))
      refine ⟨res :: results, ?_, .cons hres hfa⟩
      unfold executeParallel at hrs ⊢
      simp only [List.map_cons, collectJoined, hres]
      rw [hrs]
  · intro pre
    induction pre with
    | nil =>
      intro s post e _ hs
      unfold executeParallel
      simp only [List.nil_append, List.map_cons, hs, collectJoined]
    | cons s2 pre ih =>
      intro s post e hpre hs
      obtain ⟨res2, hres2⟩ := hpre s2 (by simp)
      have hrec := ih s post e (fun s3 hs3 => hpre s3 (by simp [hs3])) hs
      unfold executeParallel at hrec ⊢
      simp only [List.cons_append, List.map_cons, collectJoined, hres2]
      rw [hrec]

/-- Witness for C2 at two concrete Detection phases. -/
theorem parallel_phase_awaits_all_or_first_error_witness :
    (∃ results, executeParallel demoEnv regAB [detectStep capA, detectStep capB] = .ok results ∧
      List.Forall₂ (fun s res => executeStepImpl demoEnv regAB s = .ok res)
        [detectStep capA, detectStep capB] results) ∧
    executeParallel detectFailAEnv regAB
      ([detectStep capB] ++ detectStep capA :: []) =
      .error (.DetectionFailed "network unreachable") := by
  constructor
  · refine (parallel_phase_awaits_all_or_first_error demoEnv regAB).1 _ ?_
    intro s hs
    fin_cases hs
    · exact ⟨_, rfl⟩
    · exact ⟨_, rfl⟩
  · refine (parallel_phase_awaits_all_or_first_error detectFailAEnv regAB).2
      [detectStep capB] (detectStep capA) [] (.DetectionFailed "network unreachable") ?_ rfl
    intro s hs
    fin_cases hs
    exact ⟨_, rfl⟩

/-- C6 counterexample: in the sequential Installation phase
`[p, a, b]` where `p` installs fine and `a`'s install fails with exit
code 1, `execute_sequential` returns the `InstallFailed` error: `b` is
never run, but also no StepResult at all is produced — neither a
`success = false` result for `a` nor `p`'s already-computed result
survive, contradicting the claim that earlier results remain and `a`
gets a failed result. -/
theorem sequential_install_error_cex :
    executeSequential installFailAEnv regPAB
      [installStep capP, installStep capA, installStep capB] =
      .error (.InstallFailed "a" 1 "boom") := by
  rfl

/-- C6 amended: in a sequential phase, the first step whose
operation errors makes the phase return that error: later steps never
run and the results of earlier steps are discarded with the phase's
return value (the error itself carries the tool and exit code); when
every step succeeds the phase returns all results in order; and an
Install step that produces a StepResult at all always has
`success = true` — a `success = false` install result cannot exist. -/
theorem sequential_phase_aborts_on_error (env : ExecEnv) (r : InstallerRegistry) :
    (∀ (pre : List Step) (s : Step) (post : List Step) (e : BootstrapError),
      (∀ s2 ∈ pre, ∃ res, executeStepImpl env r s2 = .ok res) →
      executeStepImpl env r s = .error e →
      executeSequential env r (pre ++ s :: post) = .error e) ∧
    (∀ steps : List Step, (∀ s ∈ steps, ∃ res, executeStepImpl env r s = .ok res) →
      ∃ results, executeSequential env r steps = .ok results ∧
        List.Forall₂ (fun s res => executeStepImpl env r s = .ok res) steps results) ∧
    (∀ (step : Step) (res : StepResult), step.action = .Install →
      executeStepImpl env r step = .ok res → res.success = true) := by
  refine ⟨?_, ?_, ?_⟩
  · intro pre
    induction pre with
    | nil =>
      intro s post e _ hs
      simp only [List.nil_append, executeSequential, hs]
    | cons s2 pre ih =>
      intro s post e hpre hs
      obtain ⟨res2, hres2⟩ := hpre s2 (by simp)
      have hrec := ih s post e (fun s3 hs3 => hpre s3 (by simp [hs3])) hs
      simp only [List.cons_append, executeSequential, hres2, List.append_eq]
      rw [hrec]
  · intro steps
    induction steps with
    | nil => intro _; exact ⟨[], rfl, .nil⟩
    | cons s rest ih =>
      intro hok
      obtain ⟨res, hres⟩ := hok s (by simp)
      obtain ⟨results, hrs, hfa⟩ := ih (fun s2 hs2 => hok s2 (by simp [hs2]))
      refine ⟨res :: results, ?_, .cons hres hfa⟩
      simp only [executeSequential, hres]
      rw [hrs]
  · intro step res hact hok
    unfold executeStepImpl at hok
    cases hlo : acquireLocks env step.required_locks with
    | error e => rw [hlo] at hok; cases hok
    | ok u =>
      rw [hlo] at hok
      cases hget : r.get step.installer with
      | none => rw [hget] at hok; cases hok
      | some c =>
        rw [hget] at hok
        rw [hact] at hok
        cases hins : env.install step.installer with
        | error e => rw [hins] at hok; cases hok
        | ok ir =>
          rw [hins] at hok
          cases hok
          rfl

/-- Witness for C6 at the concrete `[p, a, b]` phase and a
successful install. -/
theorem sequential_phase_aborts_on_error_witness :
    executeSequential installFailAEnv regPAB
      ([installStep capP] ++ installStep capA :: [installStep capB]) =
      .error (.InstallFailed "a" 1 "boom") ∧
    executeStepImpl demoEnv regAB (installStep capA) =
      .ok ⟨"install-a", "a", true, 0, none, some ⟨⟨1, 0, 0⟩, true, []⟩, none⟩ ∧
    (⟨"install-a", "a", true, 0, none, some ⟨⟨1, 0, 0⟩, true, []⟩, none⟩ : StepResult).success
      = true := by
  refine ⟨?_, rfl, ?_⟩
  · refine (sequential_phase_aborts_on_error installFailAEnv regPAB).1
      [installStep capP] (installStep capA) [installStep capB] (.InstallFailed "a" 1 "boom") ?_ rfl
    intro s hs
    fin_cases hs
    exact ⟨_, rfl⟩
  · exact (sequential_phase_aborts_on_error demoEnv regAB).2.2 (installStep capA)
      ⟨"install-a", "a", true, 0, none, some ⟨⟨1, 0, 0⟩, true, []⟩, none⟩ rfl rfl

end Bootstrap
